import Mathlib

/-!
Verification development for the lazylog core: the incremental/parallel
filter engine (lazylog-framework/src/filter.rs), the structured reassembler
(lazylog-dyeh/src/parser.rs and lazylog-parser/src/lib.rs), the Android
decoders (lazylog-android/src/parser.rs) and the bounded hand-off queue used
by the ingestion pipeline (lazylog-framework/src/provider/mod.rs).

Rust strings are modelled as lists of characters. Unicode-dependent
primitives (to_lowercase, char::is_whitespace, \w and \s character classes)
are modelled by their ASCII behaviour, which is exact on every input
considered in this development.
-/

abbrev Str := List Char

/-- Model of Rust str::to_lowercase (per-character case mapping). -/
def toLowercase (s : Str) : Str := s.map Char.toLower

/-- Model of Rust str::contains with a string pattern: substring test. -/
def isSubstring (pat : Str) : Str → Bool
  | [] => pat.isEmpty
  | c :: rest => pat.isPrefixOf (c :: rest) || isSubstring pat rest

theorem isPrefixOf_of_append_isPrefixOf (a b t : Str)
    (h : (a ++ b).isPrefixOf t = true) : a.isPrefixOf t = true := by
  induction a generalizing t with
  | nil => simp [List.isPrefixOf]
  | cons x a ih =>
    cases t with
    | nil => simp [List.isPrefixOf] at h
    | cons y t =>
      simp only [List.cons_append, List.isPrefixOf, Bool.and_eq_true] at h ⊢
      exact ⟨h.1, ih t h.2⟩

theorem isSubstring_of_append_isSubstring (a b t : Str)
    (h : isSubstring (a ++ b) t = true) : isSubstring a t = true := by
  induction t with
  | nil =>
    simp only [isSubstring, List.isEmpty_iff, List.append_eq_nil] at h ⊢
    exact h.1
  | cons c rest ih =>
    simp only [isSubstring, Bool.or_eq_true] at h ⊢
    cases h with
    | inl h => exact Or.inl (isPrefixOf_of_append_isPrefixOf a b _ h)
    | inr h => exact Or.inr (ih h)

theorem isPrefixOf_iff_exists_append (p q : Str) :
    p.isPrefixOf q = true ↔ ∃ s, q = p ++ s := by
  induction p generalizing q with
  | nil => simp [List.isPrefixOf]
  | cons x p ih =>
    cases q with
    | nil =>
      simp [List.isPrefixOf]
    | cons y q =>
      simp only [List.isPrefixOf, Bool.and_eq_true, beq_iff_eq, ih, List.cons_append,
        List.cons.injEq]
      constructor
      · rintro ⟨rfl, s, rfl⟩; exact ⟨s, rfl, rfl⟩
      · rintro ⟨s, rfl, rfl⟩; exact ⟨rfl, s, rfl⟩

/-- Log detail level (u8 in the source, a plain number here). -/
abbrev LogDetailLevel := Nat

/-- Framework log entry (lazylog-framework/src/provider/log_item.rs). The
auto-generated uuid is dropped and the wall-clock creation timestamp of
LogItem::new is abstracted as the empty string; no claim depends on either. -/
structure LogItem where
  time : Str
  content : Str
  raw_content : Str
  metadata : List (Str × Str)
  deriving DecidableEq

instance : Inhabited LogItem := ⟨⟨[], [], [], []⟩⟩

/-- Model of LogItem::new (framework version, two arguments). -/
def LogItem.new (content raw_content : Str) : LogItem :=
  ⟨[], content, raw_content, []⟩

/-- Model of LogItem::with_metadata; the HashMap is modelled as an
association list with replace-or-append insertion. -/
def LogItem.with_metadata (it : LogItem) (k v : Str) : LogItem :=
  if it.metadata.any (fun p => p.1 == k) then
    { it with metadata := it.metadata.map (fun p => if p.1 == k then (k, v) else p) }
  else
    { it with metadata := it.metadata ++ [(k, v)] }

/-- Model of LogItem::get_metadata. -/
def LogItem.get_metadata (it : LogItem) (k : Str) : Option Str :=
  (it.metadata.find? (fun p => p.1 == k)).map Prod.snd

/-- Filtering engine state (lazylog-framework/src/filter.rs). The
LogItemFormatter trait object is modelled by its only method used here,
get_searchable_text, as a plain function. -/
structure FilterEngine where
  previous_query : Str
  previous_results : List Nat
  formatter : Option (LogItem → LogDetailLevel → Str)

/-- Model of FilterEngine::new. -/
def FilterEngine.new : FilterEngine := ⟨[], [], none⟩

/-- Model of FilterEngine::set_formatter. -/
def FilterEngine.set_formatter (st : FilterEngine) (f : LogItem → LogDetailLevel → Str) :
    FilterEngine :=
  { st with formatter := some f }

/-- Model of FilterEngine::reset. -/
def FilterEngine.reset (st : FilterEngine) : FilterEngine :=
  { st with previous_query := [], previous_results := [] }

/-- Substring test one candidate index undergoes in filter_sequential and
filter_parallel: searchable text, lowercased, must contain the (already
lowercased) pattern. Out-of-range indices read a default item (the Rust
slice indexing would panic; no claim exercises that case). -/
def matchesPattern (raw_logs : List LogItem) (formatter : LogItem → LogDetailLevel → Str)
    (detail_level : LogDetailLevel) (pattern_lower : Str) (idx : Nat) : Bool :=
  isSubstring pattern_lower (toLowercase (formatter (raw_logs.getD idx default) detail_level))

/-- Model of FilterEngine::filter_sequential. -/
def filter_sequential (raw_logs : List LogItem) (search_space : List Nat)
    (pattern_lower : Str) (detail_level : LogDetailLevel)
    (formatter : LogItem → LogDetailLevel → Str) : List Nat :=
  search_space.filter (matchesPattern raw_logs formatter detail_level pattern_lower)

/-- Model of FilterEngine::filter_parallel. The rayon worker pool splits the
search space into consecutive chunks, filters each and re-joins the results
in order; the chunk decomposition is explicit here, and every decomposition
whose concatenation is the search space yields the sequential result
(proved below). -/
def filter_parallel (raw_logs : List LogItem) (chunks : List (List Nat))
    (pattern_lower : Str) (detail_level : LogDetailLevel)
    (formatter : LogItem → LogDetailLevel → Str) : List Nat :=
  (chunks.map
    (fun ch => filter_sequential raw_logs ch pattern_lower detail_level formatter)).flatten

/-- One concrete chunk decomposition (512-element chunks) used when the
engine takes the parallel path. -/
def chunksOf512 : List α → List (List α)
  | [] => []
  | c :: rest => ((c :: rest).take 512) :: chunksOf512 (rest.drop 511)
termination_by l => l.length
decreasing_by simp; omega

theorem chunksOf512_flatten (l : List α) : (chunksOf512 l).flatten = l := by
  induction l using chunksOf512.induct with
  | case1 => simp [chunksOf512]
  | case2 c rest ih =>
    rw [chunksOf512]
    simp only [List.flatten_cons, ih]
    have : rest.drop 511 = (c :: rest).drop 512 := rfl
    rw [this, List.take_append_drop]

/-- Threshold branch of FilterEngine::filter and filter_new_logs: the
parallel path is taken when the search space holds more than 1000
candidates (search_space.len() > 1000 in the source). -/
def usesParallel (search_space_len : Nat) : Bool := 1000 < search_space_len

/-- Size-dispatched filtering body shared by filter and filter_new_logs. -/
def filterDispatch (raw_logs : List LogItem) (search_space : List Nat)
    (pattern_lower : Str) (detail_level : LogDetailLevel)
    (formatter : LogItem → LogDetailLevel → Str) : List Nat :=
  if usesParallel search_space.length then
    filter_parallel raw_logs (chunksOf512 search_space) pattern_lower detail_level formatter
  else
    filter_sequential raw_logs search_space pattern_lower detail_level formatter

/-- Model of FilterEngine::filter. Returns the updated engine state with
the produced index list. -/
def FilterEngine.filter (st : FilterEngine) (raw_logs : List LogItem) (query : Str)
    (detail_level : LogDetailLevel) : FilterEngine × List Nat :=
  if query.isEmpty then (st.reset, List.range raw_logs.length) else
  match st.formatter with
  | none => (st, List.range raw_logs.length)
  | some formatter =>
    let can_use_incremental :=
      !st.previous_query.isEmpty && st.previous_query.isPrefixOf query &&
        !st.previous_results.isEmpty
    let search_space := if can_use_incremental then st.previous_results
      else List.range raw_logs.length
    let pattern_lower := toLowercase query
    let filtered_indices :=
      filterDispatch raw_logs search_space pattern_lower detail_level formatter
    ({ st with previous_query := query, previous_results := filtered_indices },
      filtered_indices)

/-- Model of FilterEngine::filter_new_logs. -/
def FilterEngine.filter_new_logs (st : FilterEngine) (raw_logs : List LogItem)
    (old_count : Nat) (query : Str) (detail_level : LogDetailLevel) :
    FilterEngine × List Nat :=
  if query = st.previous_query then
    if raw_logs.length ≤ old_count then (st, st.previous_results) else
    if query.isEmpty then (st, List.range raw_logs.length) else
    match st.formatter with
    | none => (st, List.range raw_logs.length)
    | some formatter =>
      let new_indices := List.range' old_count (raw_logs.length - old_count)
      let pattern_lower := toLowercase query
      let new_filtered :=
        filterDispatch raw_logs new_indices pattern_lower detail_level formatter
      let all_results := st.previous_results ++ new_filtered
      ({ st with previous_results := all_results }, all_results)
  else st.filter raw_logs query detail_level

/-- Exact match set of a query over an entry list: the indices whose
searchable text contains the lowercased query, in ascending order. -/
def fullMatches (raw_logs : List LogItem) (query : Str) (detail_level : LogDetailLevel)
    (formatter : LogItem → LogDetailLevel → Str) : List Nat :=
  (List.range raw_logs.length).filter
    (matchesPattern raw_logs formatter detail_level (toLowercase query))

/-- Cache states from which a filter call is trustworthy: either no cached
results at all, or the cached result list is exactly the match set of the
cached query over this entry list at this detail level (which is what a
prior full filter call over the same list leaves behind). -/
def CacheConsistent (st : FilterEngine) (raw_logs : List LogItem)
    (detail_level : LogDetailLevel) : Prop :=
  st.previous_results = [] ∨
    ∃ f, st.formatter = some f ∧
      st.previous_results = fullMatches raw_logs st.previous_query detail_level f

theorem filter_parallel_eq_sequential (raw_logs : List LogItem)
    (chunks : List (List Nat)) (search_space : List Nat) (pattern_lower : Str)
    (detail_level : LogDetailLevel) (formatter : LogItem → LogDetailLevel → Str)
    (h : chunks.flatten = search_space) :
    filter_parallel raw_logs chunks pattern_lower detail_level formatter =
      filter_sequential raw_logs search_space pattern_lower detail_level formatter := by
  subst h
  induction chunks with
  | nil => rfl
  | cons c cs ih =>
    show filter_sequential raw_logs c pattern_lower detail_level formatter ++
        filter_parallel raw_logs cs pattern_lower detail_level formatter = _
    rw [ih]
    simp [filter_sequential, List.filter_append]

theorem filterDispatch_eq_sequential (raw_logs : List LogItem) (search_space : List Nat)
    (pattern_lower : Str) (detail_level : LogDetailLevel)
    (formatter : LogItem → LogDetailLevel → Str) :
    filterDispatch raw_logs search_space pattern_lower detail_level formatter =
      filter_sequential raw_logs search_space pattern_lower detail_level formatter := by
  unfold filterDispatch
  split
  · exact filter_parallel_eq_sequential _ _ _ _ _ _ (chunksOf512_flatten _)
  · rfl

theorem matchesPattern_mono (raw_logs : List LogItem)
    (formatter : LogItem → LogDetailLevel → Str) (detail_level : LogDetailLevel)
    (q1 suffix : Str) (idx : Nat)
    (h : matchesPattern raw_logs formatter detail_level (toLowercase (q1 ++ suffix)) idx
      = true) :
    matchesPattern raw_logs formatter detail_level (toLowercase q1) idx = true := by
  unfold matchesPattern at h ⊢
  rw [toLowercase, List.map_append] at h
  exact isSubstring_of_append_isSubstring _ _ _ h

theorem fullMatches_filter_extend (raw_logs : List LogItem) (q1 suffix : Str)
    (detail_level : LogDetailLevel) (f : LogItem → LogDetailLevel → Str) :
    (fullMatches raw_logs q1 detail_level f).filter
        (matchesPattern raw_logs f detail_level (toLowercase (q1 ++ suffix))) =
      fullMatches raw_logs (q1 ++ suffix) detail_level f := by
  unfold fullMatches
  rw [List.filter_filter]
  refine List.filter_congr ?_
  intro i _
  cases hq : matchesPattern raw_logs f detail_level (toLowercase (q1 ++ suffix)) i
  · simp
  · simp [matchesPattern_mono _ _ _ _ _ _ hq]

theorem fullMatches_subset (raw_logs : List LogItem) (q1 suffix : Str)
    (detail_level : LogDetailLevel) (f : LogItem → LogDetailLevel → Str) :
    fullMatches raw_logs (q1 ++ suffix) detail_level f ⊆
      fullMatches raw_logs q1 detail_level f := by
  intro i hi
  rw [← fullMatches_filter_extend raw_logs q1 suffix detail_level f] at hi
  exact List.mem_of_mem_filter hi

theorem filter_snd_of_formatter_none (st : FilterEngine) (raw_logs : List LogItem)
    (query : Str) (detail_level : LogDetailLevel) (h : st.formatter = none) :
    (st.filter raw_logs query detail_level).2 = List.range raw_logs.length := by
  unfold FilterEngine.filter
  rw [h]
  split <;> rfl

theorem filter_snd_eq_fullMatches (st : FilterEngine) (raw_logs : List LogItem)
    (query : Str) (detail_level : LogDetailLevel) (f : LogItem → LogDetailLevel → Str)
    (hf : st.formatter = some f) (hq : query ≠ [])
    (hc : CacheConsistent st raw_logs detail_level) :
    (st.filter raw_logs query detail_level).2 =
      fullMatches raw_logs query detail_level f := by
  have hqe : query.isEmpty = false := List.isEmpty_eq_false.2 hq
  simp only [FilterEngine.filter, hf, hqe, Bool.false_eq_true, if_false,
    filterDispatch_eq_sequential]
  by_cases hinc : (!st.previous_query.isEmpty && st.previous_query.isPrefixOf query &&
      !st.previous_results.isEmpty) = true
  · rw [if_pos hinc]
    simp only [Bool.and_eq_true, Bool.not_eq_eq_eq_not, Bool.not_true,
      List.isEmpty_eq_false] at hinc
    obtain ⟨⟨hpq, hpre⟩, hpr⟩ := hinc
    rcases hc with hc | ⟨f', hf', hres⟩
    · exact absurd hc hpr
    · rw [hf'] at hf
      cases hf
      obtain ⟨s, hs⟩ := (isPrefixOf_iff_exists_append _ _).1 hpre
      subst hs
      rw [hres]
      exact fullMatches_filter_extend raw_logs st.previous_query s detail_level f
  · rw [if_neg hinc]
    rfl

/-- Concrete formatter used in witnesses: searchable text is the content. -/
def exFormatter : LogItem → LogDetailLevel → Str := fun it _ => it.content

/-- Concrete entry whose content is "abc". -/
def exItemABC : LogItem := LogItem.new "abc".toList "abc".toList

/-- Concrete entry whose content is "zzz". -/
def exItemZZZ : LogItem := LogItem.new "zzz".toList "zzz".toList

/-- Fresh engine with the witness formatter installed. -/
def exEngine : FilterEngine := ⟨[], [], some exFormatter⟩

/-- Engine with a stale cache: cached query "a" and cached result list [0],
a state reachable by filtering a different entry list beforehand. -/
def staleEngine : FilterEngine := ⟨"a".toList, [0], some exFormatter⟩

/-- C1 counterexample: the subset property does not hold regardless of cache
state. Over two entries both reading "abc", an engine whose stale cache maps
query "a" to result [0] answers [0] for query "ab", while a fresh engine
answers [0, 1] for the extended query "abc" = "ab" + "c"; [0, 1] is not a
subset of [0]. -/
theorem filter_extension_subset_cex :
    ¬ ((exEngine.filter [exItemABC, exItemABC] ("ab".toList ++ "c".toList) 0).2 ⊆
        (staleEngine.filter [exItemABC, exItemABC] "ab".toList 0).2) := by
  intro h
  have h1 : (1 : Nat) ∈
      (exEngine.filter [exItemABC, exItemABC] ("ab".toList ++ "c".toList) 0).2 := by
    decide
  have h2 := h h1
  revert h2
  decide

/-- C1 (amended): for any entry list and detail level, if query2 = query1 +
suffix, then filter(entries, query2, d) is a subset of filter(entries,
query1, d), provided each call starts from a cache state that is consistent
with this entry list (empty, or recording exactly the match set of its
cached query), with the same formatter on both calls. -/
theorem filter_query_extension_subset (st1 st2 : FilterEngine)
    (raw_logs : List LogItem) (q1 suffix : Str) (detail_level : LogDetailLevel)
    (hfmt : st1.formatter = st2.formatter)
    (hc1 : CacheConsistent st1 raw_logs detail_level)
    (hc2 : CacheConsistent st2 raw_logs detail_level) :
    (st2.filter raw_logs (q1 ++ suffix) detail_level).2 ⊆
      (st1.filter raw_logs q1 detail_level).2 := by
  cases hf2 : st2.formatter with
  | none =>
    have hf1 : st1.formatter = none := by rw [hfmt, hf2]
    rw [filter_snd_of_formatter_none st2 _ _ _ hf2,
      filter_snd_of_formatter_none st1 _ _ _ hf1]
    exact fun i hi => hi
  | some f =>
    have hf1 : st1.formatter = some f := by rw [hfmt, hf2]
    cases q1 with
    | nil =>
      have h1 : (st1.filter raw_logs [] detail_level).2 = List.range raw_logs.length :=
        rfl
      rw [h1]
      by_cases hs : ([] ++ suffix : Str) = []
      · rw [hs]
        intro i hi
        exact hi
      · rw [filter_snd_eq_fullMatches st2 _ _ _ f hf2 hs hc2]
        intro i hi
        exact List.mem_of_mem_filter hi
    | cons c q1' =>
      rw [filter_snd_eq_fullMatches st2 _ _ _ f hf2 (by simp) hc2,
        filter_snd_eq_fullMatches st1 _ _ _ f hf1 (by simp) hc1]
      exact fullMatches_subset raw_logs (c :: q1') suffix detail_level f

/-- C1 witness: the amended theorem applied to two fresh-cache engines over
one entry reading "abc", with query1 = "a" and query2 = "ab". -/
theorem filter_query_extension_subset_witness :
    (exEngine.filter [exItemABC] ("a".toList ++ "b".toList) 0).2 ⊆
      (exEngine.filter [exItemABC] "a".toList 0).2 :=
  filter_query_extension_subset exEngine exEngine [exItemABC] "a".toList "b".toList 0
    rfl (Or.inl rfl) (Or.inl rfl)

theorem range_split (n k : Nat) (h : k ≤ n) :
    List.range n = List.range k ++ List.range' k (n - k) := by
  rw [List.range_eq_range', List.range_eq_range']
  have happ := List.range'_append 0 k (n - k) 1
  simp only [Nat.zero_add, Nat.one_mul] at happ
  conv_lhs => rw [show n = n - k + k by omega]
  exact happ.symm

theorem matchesPattern_take (raw_logs : List LogItem)
    (formatter : LogItem → LogDetailLevel → Str) (detail_level : LogDetailLevel)
    (pattern_lower : Str) (k i : Nat) (h : i < k) :
    matchesPattern (raw_logs.take k) formatter detail_level pattern_lower i =
      matchesPattern raw_logs formatter detail_level pattern_lower i := by
  unfold matchesPattern
  rw [List.getD_eq_getElem?_getD, List.getD_eq_getElem?_getD, List.getElem?_take,
    if_pos h]

theorem fullMatches_take_append (raw_logs : List LogItem) (query : Str)
    (detail_level : LogDetailLevel) (f : LogItem → LogDetailLevel → Str)
    (old_count : Nat) (h : old_count ≤ raw_logs.length) :
    fullMatches (raw_logs.take old_count) query detail_level f ++
        filter_sequential raw_logs (List.range' old_count (raw_logs.length - old_count))
          (toLowercase query) detail_level f =
      fullMatches raw_logs query detail_level f := by
  unfold fullMatches filter_sequential
  rw [List.length_take, Nat.min_eq_left h]
  have h1 : (List.range old_count).filter
      (matchesPattern (raw_logs.take old_count) f detail_level (toLowercase query)) =
      (List.range old_count).filter
        (matchesPattern raw_logs f detail_level (toLowercase query)) := by
    refine List.filter_congr ?_
    intro i hi
    exact matchesPattern_take raw_logs f detail_level (toLowercase query) old_count i
      (List.mem_range.1 hi)
  rw [h1, range_split raw_logs.length old_count h, List.filter_append]

/-- C2: with the query and detail level unchanged since the most recent
filter call over the first old_count entries (the cache records that call's
exact match set), filter_new_logs over the extended list returns the same
index list as a fresh filter, with an empty cache, over the full extended
list. -/
theorem filter_new_logs_eq_fresh_filter (st : FilterEngine) (raw_logs : List LogItem)
    (old_count : Nat) (query : Str) (detail_level : LogDetailLevel)
    (f : LogItem → LogDetailLevel → Str)
    (hf : st.formatter = some f)
    (hq : st.previous_query = query)
    (hlt : old_count < raw_logs.length)
    (hres : query ≠ [] →
      st.previous_results = fullMatches (raw_logs.take old_count) query detail_level f) :
    (st.filter_new_logs raw_logs old_count query detail_level).2 =
      ((FilterEngine.new.set_formatter f).filter raw_logs query detail_level).2 := by
  unfold FilterEngine.filter_new_logs
  rw [if_pos hq.symm, if_neg (by omega)]
  by_cases hqe : query = []
  · subst hqe
    rfl
  · have hqe' : query.isEmpty = false := List.isEmpty_eq_false.2 hqe
    rw [hqe']
    simp only [Bool.false_eq_true, if_false, hf]
    rw [filter_snd_eq_fullMatches (FilterEngine.new.set_formatter f) raw_logs query
      detail_level f rfl hqe (Or.inl rfl)]
    simp only [filterDispatch_eq_sequential]
    rw [hres hqe]
    exact fullMatches_take_append raw_logs query detail_level f old_count (le_of_lt hlt)

/-- C2 witness: the theorem applied to the entry list ["abc", "zzz"], query
"a", one newly appended entry, and a cache that recorded the match set [0]
of "a" over the first entry. -/
theorem filter_new_logs_eq_fresh_filter_witness :
    ((⟨"a".toList, [0], some exFormatter⟩ : FilterEngine).filter_new_logs
        [exItemABC, exItemZZZ] 1 "a".toList 0).2 =
      ((FilterEngine.new.set_formatter exFormatter).filter
        [exItemABC, exItemZZZ] "a".toList 0).2 :=
  filter_new_logs_eq_fresh_filter ⟨"a".toList, [0], some exFormatter⟩
    [exItemABC, exItemZZZ] 1 "a".toList 0 exFormatter rfl rfl (by decide)
    (fun _ => by decide)

/-- C8 counterexample: a search space of exactly 1000 candidates does not
take the parallel path (the source condition is search_space.len() > 1000),
contradicting the claimed "at or above 1000". -/
theorem threshold_at_1000_cex : usesParallel 1000 = false := rfl

/-- C8 (amended): the parallel path is taken exactly when the search space
holds strictly more than 1000 candidates (so exactly 1000 still runs
sequentially); the parallel worker-pool path returns the identical index
list to the sequential path for every chunk decomposition of the search
space; and the result preserves ascending original-index order whenever the
search space is ascending. -/
theorem parallel_sequential_paths_agree :
    (∀ n, usesParallel n = true ↔ 1000 < n) ∧
    (∀ (raw_logs : List LogItem) (chunks : List (List Nat)) (search_space : List Nat)
      (pattern_lower : Str) (detail_level : LogDetailLevel)
      (f : LogItem → LogDetailLevel → Str),
      chunks.flatten = search_space →
      filter_parallel raw_logs chunks pattern_lower detail_level f =
        filter_sequential raw_logs search_space pattern_lower detail_level f) ∧
    (∀ (raw_logs : List LogItem) (search_space : List Nat) (pattern_lower : Str)
      (detail_level : LogDetailLevel) (f : LogItem → LogDetailLevel → Str),
      search_space.Pairwise (· < ·) →
      (filter_sequential raw_logs search_space pattern_lower detail_level f).Pairwise
        (· < ·)) := by
  refine ⟨fun n => by simp [usesParallel], ?_, ?_⟩
  · intro raw_logs chunks search_space pattern_lower detail_level f h
    exact filter_parallel_eq_sequential raw_logs chunks search_space pattern_lower
      detail_level f h
  · intro raw_logs search_space pattern_lower detail_level f h
    exact h.filter _

/-- C8 witness: the threshold at 1001, a two-chunk decomposition of the
search space [0, 1], and order preservation on that space. -/
theorem parallel_sequential_paths_agree_witness :
    usesParallel 1001 = true ∧
    filter_parallel [exItemABC, exItemZZZ] [[0], [1]] "a".toList 0 exFormatter =
      filter_sequential [exItemABC, exItemZZZ] [0, 1] "a".toList 0 exFormatter ∧
    (filter_sequential [exItemABC, exItemZZZ] [0, 1] "a".toList 0 exFormatter).Pairwise
      (· < ·) :=
  ⟨(parallel_sequential_paths_agree.1 1001).2 (by decide),
    parallel_sequential_paths_agree.2.1 [exItemABC, exItemZZZ] [[0], [1]] [0, 1]
      "a".toList 0 exFormatter (by decide),
    parallel_sequential_paths_agree.2.2 [exItemABC, exItemZZZ] [0, 1] "a".toList 0
      exFormatter (by decide)⟩

/-- Engine states reachable from a fresh engine without set_formatter ever
being called (set_formatter is the only operation that installs one). -/
inductive NoFormatterReachable : FilterEngine → Prop
  | base : NoFormatterReachable FilterEngine.new
  | filter_step (st : FilterEngine) (raw_logs : List LogItem) (query : Str)
      (detail_level : LogDetailLevel) : NoFormatterReachable st →
      NoFormatterReachable (st.filter raw_logs query detail_level).1
  | filter_new_step (st : FilterEngine) (raw_logs : List LogItem) (old_count : Nat)
      (query : Str) (detail_level : LogDetailLevel) : NoFormatterReachable st →
      NoFormatterReachable (st.filter_new_logs raw_logs old_count query detail_level).1
  | reset_step (st : FilterEngine) : NoFormatterReachable st →
      NoFormatterReachable st.reset

theorem noFormatterReachable_invariant (st : FilterEngine)
    (h : NoFormatterReachable st) :
    st.formatter = none ∧ st.previous_query = [] ∧ st.previous_results = [] := by
  induction h with
  | base => exact ⟨rfl, rfl, rfl⟩
  | filter_step st raw_logs query detail_level h ih =>
    obtain ⟨h1, h2, h3⟩ := ih
    unfold FilterEngine.filter
    rw [h1]
    split
    · exact ⟨h1, rfl, rfl⟩
    · exact ⟨h1, h2, h3⟩
  | filter_new_step st raw_logs old_count query detail_level h ih =>
    obtain ⟨h1, h2, h3⟩ := ih
    unfold FilterEngine.filter_new_logs
    by_cases hq : query = st.previous_query
    · rw [if_pos hq]
      split
      · exact ⟨h1, h2, h3⟩
      · have hqe : query.isEmpty = true := by rw [hq, h2]; rfl
        rw [hqe, if_pos rfl]
        exact ⟨h1, h2, h3⟩
    · rw [if_neg hq]
      unfold FilterEngine.filter
      rw [h1]
      split
      · exact ⟨h1, rfl, rfl⟩
      · exact ⟨h1, h2, h3⟩
  | reset_step st h ih =>
    exact ⟨ih.1, rfl, rfl⟩

/-- C10: on an engine that never had a formatter set, filter and
filter_new_logs with a non-empty query return the full index list
0..len(entries) and leave the engine state (cached query and cached result
list included) unchanged. -/
theorem filter_without_formatter_returns_all (st : FilterEngine)
    (h : NoFormatterReachable st) (raw_logs : List LogItem) (old_count : Nat)
    (query : Str) (detail_level : LogDetailLevel) (hq : query ≠ []) :
    st.filter raw_logs query detail_level = (st, List.range raw_logs.length) ∧
    st.filter_new_logs raw_logs old_count query detail_level =
      (st, List.range raw_logs.length) := by
  obtain ⟨h1, h2, h3⟩ := noFormatterReachable_invariant st h
  have hfilter : st.filter raw_logs query detail_level =
      (st, List.range raw_logs.length) := by
    unfold FilterEngine.filter
    rw [h1, if_neg (by simp [List.isEmpty_eq_false, hq])]
  refine ⟨hfilter, ?_⟩
  unfold FilterEngine.filter_new_logs
  rw [if_neg (by rw [h2]; exact hq)]
  exact hfilter

/-- C10 witness: the fresh engine, one entry and the query "a". -/
theorem filter_without_formatter_returns_all_witness :
    FilterEngine.new.filter [exItemABC] "a".toList 0 =
      (FilterEngine.new, List.range ([exItemABC] : List LogItem).length) ∧
    FilterEngine.new.filter_new_logs [exItemABC] 0 "a".toList 0 =
      (FilterEngine.new, List.range ([exItemABC] : List LogItem).length) :=
  filter_without_formatter_returns_all FilterEngine.new NoFormatterReachable.base
    [exItemABC] 0 "a".toList 0 (by decide)

/-- Modelled from the spec: the bounded hand-off queue between the ingestion
pipeline and the consumer. The concrete structure is the ringbuf SPSC ring
buffer, a third-party crate whose source is not part of this repository;
spec sections 5 and 9 pin down what the core relies on: a fixed-capacity
queue with a non-blocking try-add that drops the incoming item when no room
is free (spawn_provider_thread in lazylog-framework/src/provider/mod.rs
calls try_push and merely logs when it reports failure). -/
structure HandoffQueue where
  capacity : Nat
  items : List LogItem

/-- Modelled from the spec: non-blocking try-push; the Bool mirrors the
Ok/Err result of ringbuf's try_push. -/
def HandoffQueue.tryPush (q : HandoffQueue) (x : LogItem) : HandoffQueue × Bool :=
  if q.capacity ≤ q.items.length then (q, false)
  else ({ q with items := q.items ++ [x] }, true)

/-- Producer-side loop pushing a batch of parsed entries one by one
(spawn_provider_thread's per-poll loop), never waiting for room. -/
def HandoffQueue.pushAll (q : HandoffQueue) (xs : List LogItem) : HandoffQueue :=
  xs.foldl (fun acc x => (acc.tryPush x).1) q

theorem tryPush_capacity (q : HandoffQueue) (x : LogItem) :
    (q.tryPush x).1.capacity = q.capacity := by
  unfold HandoffQueue.tryPush
  split <;> rfl

theorem tryPush_length_le (q : HandoffQueue) (x : LogItem)
    (h : q.items.length ≤ q.capacity) :
    (q.tryPush x).1.items.length ≤ q.capacity := by
  unfold HandoffQueue.tryPush
  split
  · exact h
  · next hlt =>
    simp only [List.length_append, List.length_cons, List.length_nil]
    omega

theorem handoff_pushAll_bounded (xs : List LogItem) (q : HandoffQueue)
    (h : q.items.length ≤ q.capacity) :
    (q.pushAll xs).items.length ≤ q.capacity := by
  induction xs generalizing q with
  | nil => exact h
  | cons x xs ih =>
    show ((q.tryPush x).1.pushAll xs).items.length ≤ q.capacity
    have hcap : (q.tryPush x).1.capacity = q.capacity := tryPush_capacity q x
    have := ih (q.tryPush x).1 (by rw [hcap]; exact tryPush_length_le q x h)
    rw [hcap] at this
    exact this

/-- C9: a try-push onto a full hand-off queue drops the incoming entry,
returning the queue unchanged with an error result instead of waiting, and
a producer pushing any batch of entries without the consumer draining never
grows the queue beyond its configured capacity. The claim's "never blocks"
is the non-blocking totality of tryPush itself; no timing is modelled. -/
theorem handoff_queue_overflow_policy :
    (∀ (q : HandoffQueue) (x : LogItem), q.capacity ≤ q.items.length →
      q.tryPush x = (q, false)) ∧
    (∀ (q : HandoffQueue) (xs : List LogItem), q.items.length ≤ q.capacity →
      (q.pushAll xs).items.length ≤ q.capacity) := by
  constructor
  · intro q x h
    unfold HandoffQueue.tryPush
    rw [if_pos h]
  · intro q xs h
    exact handoff_pushAll_bounded xs q h

/-- C9 witness: a full two-slot queue rejects a push unchanged, and pushing
three entries into an empty two-slot queue ends at size at most two. -/
theorem handoff_queue_overflow_policy_witness :
    HandoffQueue.tryPush ⟨2, [exItemABC, exItemZZZ]⟩ exItemABC =
      (⟨2, [exItemABC, exItemZZZ]⟩, false) ∧
    (HandoffQueue.pushAll ⟨2, []⟩ [exItemABC, exItemZZZ, exItemABC]).items.length ≤ 2 :=
  ⟨handoff_queue_overflow_policy.1 ⟨2, [exItemABC, exItemZZZ]⟩ exItemABC (by decide),
    handoff_queue_overflow_policy.2 ⟨2, []⟩ [exItemABC, exItemZZZ, exItemABC]
      (by decide)⟩

/-- ASCII model of Rust char::is_whitespace and the regex \s class. -/
def isWs (c : Char) : Bool := c.isWhitespace

/-- ASCII model of the regex \w class (word characters). -/
def isWordChar (c : Char) : Bool := c.isAlphanum || c == '_'

/-- Decimal digit, the regex \d class. -/
def isDigitChar (c : Char) : Bool := c.isDigit

/-- Control characters (Unicode category Cc), for char::is_control. -/
def isControlChar (c : Char) : Bool :=
  decide (c.toNat < 32) || (decide (127 ≤ c.toNat) && decide (c.toNat ≤ 159))

/-- Model of str::trim: drop leading and trailing whitespace. -/
def trimStr (s : Str) : Str :=
  ((s.dropWhile isWs).reverse.dropWhile isWs).reverse

/-- First index satisfying a predicate. -/
def findIdxOf (p : Char → Bool) : Str → Option Nat
  | [] => none
  | c :: rest => if p c then some 0 else (findIdxOf p rest).map (· + 1)

/-- Last index satisfying a predicate. -/
def rfindIdxOf (p : Char → Bool) : Str → Option Nat
  | [] => none
  | c :: rest =>
    match rfindIdxOf p rest with
    | some q => some (q + 1)
    | none => if p c then some 0 else none

/-- Fixed-shape pattern (one character class per position), the form of
every timestamp regex in the source. -/
def matchesShape : List (Char → Bool) → Str → Bool
  | [], _ => true
  | _ :: _, [] => false
  | p :: ps, c :: cs => p c && matchesShape ps cs

/-- Shape of the item-delimiter timestamp YYYY-MM-DD HH:MM:SS. -/
def tsShape : List (Char → Bool) :=
  [isDigitChar, isDigitChar, isDigitChar, isDigitChar, (· == '-'), isDigitChar,
   isDigitChar, (· == '-'), isDigitChar, isDigitChar, (· == ' '), isDigitChar,
   isDigitChar, (· == ':'), isDigitChar, isDigitChar, (· == ':'), isDigitChar,
   isDigitChar]

/-- Shape of the wrapper timestamp YYYY-MM-DD HH:MM:SS.mmm. -/
def tsMsShape : List (Char → Bool) :=
  tsShape ++ [(· == '.'), isDigitChar, isDigitChar, isDigitChar]

/-- Shape of the item delimiter ITEM_SEP_RE, "## " then the timestamp. -/
def itemSepShape : List (Char → Bool) :=
  (· == '#') :: (· == '#') :: (· == ' ') :: tsShape

/-- Matcher for a fixed shape at the current position. -/
def shapeMatchAt (shape : List (Char → Bool)) (t : Str) : Option Nat :=
  if matchesShape shape t then some shape.length else none

/-- Recursion core of findMatches; the fuel argument (initially the text
length) only makes the recursion structural — every step consumes at least
one character, so the fuel never runs out first. -/
def findMatchesAux (matchAt : Str → Option Nat) : Nat → Str → Nat → List (Nat × Nat)
  | 0, _, _ => []
  | _, [], _ => []
  | fuel + 1, c :: rest, pos =>
    match matchAt (c :: rest) with
    | some n =>
      (pos, pos + n) :: findMatchesAux matchAt fuel (rest.drop (n - 1)) (pos + n)
    | none => findMatchesAux matchAt fuel rest (pos + 1)

/-- Model of Regex::find_iter: scan left to right, record each leftmost
match as a (start, end) span, continue after its end (every matcher used
here only returns non-empty matches). -/
def findMatches (matchAt : Str → Option Nat) (t : Str) (pos : Nat) : List (Nat × Nat) :=
  findMatchesAux matchAt t.length t pos

/-- Recursion core of removeMatches, fueled like findMatchesAux. -/
def removeMatchesAux (matchAt : Str → Option Nat) : Nat → Str → Str
  | 0, _ => []
  | _, [] => []
  | fuel + 1, c :: rest =>
    match matchAt (c :: rest) with
    | some n => removeMatchesAux matchAt fuel (rest.drop (n - 1))
    | none => c :: removeMatchesAux matchAt fuel rest

/-- Model of Regex::replace_all with an empty replacement: delete every
non-overlapping leftmost match. -/
def removeMatches (matchAt : Str → Option Nat) (t : Str) : Str :=
  removeMatchesAux matchAt t.length t

/-- Matcher for the acquisition-layer wrapper header, the shared core of
LEADING_HEADER_RE and INLINE_HEADER_RE: bracketed millisecond timestamp,
one space, bracketed word, then greedy whitespace. The leading variant's
trailing optional newline is subsumed by the greedy whitespace run before
it. Maximal munch equals the regex's leftmost-first semantics because no
character can belong to two consecutive pieces. -/
def headerMatchAt (t : Str) : Option Nat :=
  match t with
  | '[' :: rest1 =>
    if matchesShape tsMsShape rest1 then
      match rest1.drop 23 with
      | ']' :: ' ' :: '[' :: rest2 =>
        let w := (rest2.takeWhile isWordChar).length
        if w = 0 then none
        else
          match rest2.drop w with
          | ']' :: rest3 =>
            let s := (rest3.takeWhile isWs).length
            some (1 + 23 + 3 + w + 1 + s)
          | _ => none
      | _ => none
    else none
  | _ => none

/-- Model of strip_leading_header (identical in both parser crates). -/
def strip_leading_header (s : Str) : Str :=
  match headerMatchAt s with
  | some n => s.drop n
  | none => s

/-- Model of remove_inline_headers (identical in both parser crates). -/
def remove_inline_headers (s : Str) : Str := removeMatches headerMatchAt s

/-- Body cleaning step shared by both process_delta variants. -/
def cleanBody (delta : Str) : Str :=
  trimStr (remove_inline_headers (strip_leading_header delta))

/-- Matcher for the item delimiter. -/
def itemSepMatchAt (t : Str) : Option Nat := shapeMatchAt itemSepShape t

/-- Model of ITEM_SEP_RE.find_iter(body).map(start). -/
def itemSepOffsets (body : Str) : List Nat :=
  (findMatches itemSepMatchAt body 0).map Prod.fst

/-- Model of ITEM_PARSE_RE applied at the start of a block: group 1 is the
19-character timestamp, group 2 the remainder after the greedy whitespace
run (the dotall .* takes everything that is left). -/
def itemParseGroups (block : Str) : Option (Str × Str) :=
  match block with
  | '#' :: '#' :: ' ' :: rest =>
    if matchesShape tsShape rest then
      some (rest.take 19, (rest.drop 19).dropWhile isWs)
    else none
  | _ => none

/-- Result of split_header: origin, level, tag, message. -/
structure HeaderParts where
  origin : Str
  level : Str
  tag : Str
  msg : Str
  deriving DecidableEq

/-- Leading cleanup in split_header: whitespace, byte-order mark, control
characters. -/
def headCleanup (line : Str) : Str :=
  line.dropWhile (fun c => isWs c || c == '\uFEFF' || isControlChar c)

/-- Model of CONTENT_HEADER_RE: bracketed origin, whitespace, LEVEL (one or
more uppercase letters), whitespace, "##", whitespace, bracketed tag,
whitespace, then the message (dotall rest). Maximal munch equals the
regex's leftmost-first semantics: brackets, uppercase runs and whitespace
runs cannot lend characters to the piece that follows them. -/
def contentHeaderMatch (line : Str) : Option HeaderParts :=
  match line with
  | '[' :: rest1 =>
    let origin := rest1.takeWhile (fun c => !(c == ']'))
    if origin.length = 0 then none else
    match rest1.drop origin.length with
    | ']' :: rest2 =>
      let rest3 := rest2.dropWhile isWs
      let level := rest3.takeWhile Char.isUpper
      if level.length = 0 then none else
      match (rest3.drop level.length).dropWhile isWs with
      | '#' :: '#' :: rest4 =>
        match rest4.dropWhile isWs with
        | '[' :: rest5 =>
          let tag := rest5.takeWhile (fun c => !(c == ']'))
          if tag.length = 0 then none else
          match rest5.drop tag.length with
          | ']' :: rest6 => some ⟨origin, level, tag, rest6.dropWhile isWs⟩
          | _ => none
        | _ => none
      | _ => none
    | _ => none
  | _ => none

/-- Model of split_header (identical in both parser crates). -/
def split_header (line : Str) : HeaderParts :=
  let line := headCleanup line
  match contentHeaderMatch line with
  | some h => ⟨trimStr h.origin, trimStr h.level, trimStr h.tag, trimStr h.msg⟩
  | none => ⟨[], [], [], trimStr line⟩

/-- Consecutive (start, next-start) windows over the delimiter offsets plus
the end sentinel (starts.windows(2) in the source). -/
def windowsOf : List Nat → List (Nat × Nat)
  | a :: b :: rest => (a, b) :: windowsOf (b :: rest)
  | _ => []

namespace LLP

/-- Model of parse_structured (lazylog-parser/src/lib.rs): both content and
raw are the trimmed remainder after the delimiter timestamp; the timestamp
capture is unused by this variant. -/
def parse_structured (block : Str) : Option LogItem :=
  (itemParseGroups block).map (fun g => LogItem.new (trimStr g.2) (trimStr g.2))

/-- One window's processing inside process_delta: parse the block, split
the header, keep the message as content and attach only the non-empty
fields as metadata. -/
def entryOfBlock (block : Str) : Option LogItem :=
  (parse_structured block).map (fun it =>
    let h := split_header it.content
    let item0 := LogItem.new h.msg it.raw_content
    let item1 := if h.level.isEmpty then item0
      else item0.with_metadata "level".toList h.level
    let item2 := if h.origin.isEmpty then item1
      else item1.with_metadata "origin".toList h.origin
    if h.tag.isEmpty then item2 else item2.with_metadata "tag".toList h.tag)

/-- Model of process_delta (lazylog-parser/src/lib.rs). -/
def process_delta (delta : Str) : List LogItem :=
  let body := cleanBody delta
  if body.isEmpty then [] else
  let starts := itemSepOffsets body
  if starts.isEmpty then [] else
  (windowsOf (starts ++ [body.length])).filterMap
    (fun w => entryOfBlock ((body.drop w.1).take (w.2 - w.1)))

end LLP

/-- Log entry of the framework snapshot the dyeh crate builds against
(src/src/provider/log_item.rs): six plain string fields; the uuid is
dropped as before. -/
structure DLogItem where
  time : Str
  level : Str
  origin : Str
  tag : Str
  content : Str
  raw_content : Str
  deriving DecidableEq

/-- Model of that snapshot's LogItem::new (six arguments). -/
def DLogItem.new (time level origin tag content raw_content : Str) : DLogItem :=
  ⟨time, level, origin, tag, content, raw_content⟩

/-- Case-insensitive literal prefix test (a (?i) literal regex piece). -/
def ciPrefix : Str → Str → Bool
  | [], _ => true
  | _ :: _, [] => false
  | a :: as, b :: bs => (a.toLower == b.toLower) && ciPrefix as bs

/-- Stable insertion by a numeric key; together with sortByKey this is an
exact model of Rust's stable sort_by_key (a stable sort by a total key is
uniquely determined). -/
def insertByKey (key : α → Nat) (r : α) : List α → List α
  | [] => [r]
  | h :: t => if key h < key r then h :: insertByKey key r t else r :: h :: t

/-- Stable sort by a numeric key. -/
def sortByKey (key : α → Nat) : List α → List α
  | [] => []
  | r :: rest => insertByKey key r (sortByKey key rest)

namespace Dyeh

/-- Model of parse_structured (lazylog-dyeh/src/parser.rs): the timestamp
capture becomes the item time; content and raw are the trimmed remainder. -/
def parse_structured (block : Str) : Option DLogItem :=
  (itemParseGroups block).map (fun g =>
    DLogItem.new g.1 [] [] [] (trimStr g.2) (trimStr g.2))

/-- Matcher for PAUSE_RE = (?i)bef_effect_onpause_imp\s*\(|onpause at one
position: the call-name alternative (literal, optional whitespace, opening
parenthesis) takes priority; otherwise the bare word. -/
def matchPauseAt (t : Str) : Option Nat :=
  if ciPrefix "bef_effect_onpause_imp".toList t then
    let rest := t.drop 22
    let w := (rest.takeWhile isWs).length
    match rest.drop w with
    | '(' :: _ => some (22 + w + 1)
    | _ => if ciPrefix "onpause".toList t then some 7 else none
  else if ciPrefix "onpause".toList t then some 7 else none

/-- Matcher for RESUME_RE = (?i)bef_effect_onresume_imp\s*\(. -/
def matchResumeAt (t : Str) : Option Nat :=
  if ciPrefix "bef_effect_onresume_imp".toList t then
    let rest := t.drop 23
    let w := (rest.takeWhile isWs).length
    match rest.drop w with
    | '(' :: _ => some (23 + w + 1)
    | _ => none
  else none

/-- Expand a match span to the enclosing full source lines: back to just
after the previous newline (or the start), forward through the next
newline (or to the end) — the s/e adjustment in pause_block_ranges and
resume_block_ranges. -/
def expandToLines (text : Str) (span : Nat × Nat) : Nat × Nat :=
  let s := match rfindIdxOf (· == '\n') (text.take span.1) with
    | some p => p + 1
    | none => 0
  let e := span.2 + (match findIdxOf (· == '\n') (text.drop span.2) with
    | some p => p + 1
    | none => text.length - span.2)
  (s, e)

/-- One iteration of the merge loop: a range that overlaps the last merged
range or sits within one byte of it extends that range in place; any other
range is appended. -/
def mergeStep (merged : List (Nat × Nat)) (r : Nat × Nat) : List (Nat × Nat) :=
  match merged.getLast? with
  | some last =>
    if r.1 ≤ last.2 + 1 then merged.dropLast ++ [(last.1, max last.2 r.2)]
    else merged ++ [r]
  | none => [r]

/-- The merge loop over the sorted expanded ranges. -/
def mergeRanges (ranges : List (Nat × Nat)) : List (Nat × Nat) :=
  ranges.foldl mergeStep []

/-- Model of PauseMatcher::pause_block_ranges. -/
def pause_block_ranges (text : Str) : List (Nat × Nat) :=
  mergeRanges (sortByKey Prod.fst
    ((findMatches matchPauseAt text 0).map (expandToLines text)))

/-- Model of ResumeMatcher::resume_block_ranges. -/
def resume_block_ranges (text : Str) : List (Nat × Nat) :=
  mergeRanges (sortByKey Prod.fst
    ((findMatches matchResumeAt text 0).map (expandToLines text)))

/-- Synthetic PAUSED entry. -/
def pausedItem : DLogItem :=
  DLogItem.new [] [] [] [] "DYEH PAUSED".toList "DYEH PAUSED".toList

/-- Synthetic RESUMED entry. -/
def resumedItem : DLogItem :=
  DLogItem.new [] [] [] [] "DYEH RESUMED".toList "DYEH RESUMED".toList

/-- Model of PauseMatcher's capture: one synthetic entry per merged range,
carrying the range. -/
def pauseCapture (text : Str) : List ((Nat × Nat) × DLogItem) :=
  (pause_block_ranges text).map (fun span => (span, pausedItem))

/-- Model of ResumeMatcher's capture. -/
def resumeCapture (text : Str) : List ((Nat × Nat) × DLogItem) :=
  (resume_block_ranges text).map (fun span => (span, resumedItem))

/-- Delimiter-based items of the body with their window start offsets
(step 3 of process_delta). -/
def structuredOf (body : Str) : List (Nat × DLogItem) :=
  let starts := itemSepOffsets body
  if starts.isEmpty then [] else
  (windowsOf (starts ++ [body.length])).filterMap
    (fun w => (parse_structured ((body.drop w.1).take (w.2 - w.1))).map
      (fun it =>
        let h := split_header it.content
        (w.1, DLogItem.new it.time h.level h.origin h.tag h.msg it.raw_content)))

/-- Positioned special events (step 2, matchers in MATCHERS order: pause
then resume) followed by the delimiter-based items (step 3). -/
def positionedOf (body : Str) : List (Nat × DLogItem) :=
  ((pauseCapture body ++ resumeCapture body).map (fun e => (e.1.1, e.2))) ++
    structuredOf body

/-- Step 4 of process_delta: restore the natural order by a stable sort on
the byte offsets. -/
def sortedPositioned (delta : Str) : List (Nat × DLogItem) :=
  sortByKey Prod.fst (positionedOf (cleanBody delta))

/-- Model of process_delta (lazylog-dyeh/src/parser.rs). -/
def process_delta (delta : Str) : List DLogItem :=
  if (cleanBody delta).isEmpty then [] else (sortedPositioned delta).map Prod.snd

end Dyeh

/-- Recursion core of linesOf: current line accumulated in reverse. A '\r'
is stripped only when it sits immediately before a consumed '\n'; the final
fragment keeps any trailing '\r' and a trailing newline produces no final
empty line — exactly Rust str::lines. -/
def linesOfAux (cur : Str) : Str → List Str
  | [] => [cur.reverse]
  | '\n' :: rest =>
    let line := match cur with
      | '\r' :: cs => cs.reverse
      | _ => cur.reverse
    match rest with
    | [] => [line]
    | _ => line :: linesOfAux [] rest
  | c :: rest => linesOfAux (c :: cur) rest

/-- Model of Rust str::lines. -/
def linesOf (s : Str) : List Str :=
  match s with
  | [] => []
  | _ => linesOfAux [] s

namespace Android

/-- Model of AndroidParser::parse (lazylog-android/src/parser.rs). The
final trailing-space normalization of the tag in the source (replacing an
empty trimmed tag by the empty string) is the identity and is not repeated
here. -/
def parse (raw_log : Str) : Option LogItem :=
  match linesOf raw_log with
  | [] => none
  | first_line :: restLines =>
    if !(first_line.head? == some '[' && first_line.getLast? == some ']') then
      some (LogItem.new raw_log raw_log)
    else
      let header := (first_line.drop 1).dropLast
      match findIdxOf (· == '/') header with
      | none => some (LogItem.new raw_log raw_log)
      | some slash_pos =>
        let level_start := match rfindIdxOf isWs (header.take slash_pos) with
          | some p => p + 1
          | none => 0
        let level := trimStr ((header.take slash_pos).drop level_start)
        let tag := trimStr (header.drop (slash_pos + 1))
        let message := List.intercalate ['\n'] restLines
        some (((LogItem.new message raw_log).with_metadata "level".toList level
          ).with_metadata "tag".toList tag)

/-- Model of AndroidEffectParser::parse: delegate to the full parser,
filter by the allowed tags, require a structured-marker match on the raw
line, reparse the extracted content through lazylog-parser's process_delta
and return its first entry if any. -/
def effectParse (raw_log : Str) : Option LogItem :=
  match parse raw_log with
  | none => none
  | some parsed =>
    let tag := (parsed.get_metadata "tag".toList).getD []
    if !(tag == "[Effect]".toList || tag == "CKE-Editor".toList) then none
    else if (findMatches itemSepMatchAt raw_log 0).isEmpty then none
    else
      match LLP.process_delta parsed.content with
      | it :: _ => some it
      | [] => none

end Android

theorem insertByKey_perm (key : α → Nat) (r : α) (l : List α) :
    List.Perm (insertByKey key r l) (r :: l) := by
  induction l with
  | nil => exact List.Perm.refl _
  | cons h t ih =>
    unfold insertByKey
    split
    · exact (ih.cons h).trans (List.Perm.swap r h t)
    · exact List.Perm.refl _

theorem sortByKey_perm (key : α → Nat) (l : List α) :
    List.Perm (sortByKey key l) l := by
  induction l with
  | nil => exact List.Perm.refl _
  | cons r rest ih =>
    exact (insertByKey_perm key r (sortByKey key rest)).trans (ih.cons r)

theorem insertByKey_pairwise (key : α → Nat) (r : α) (l : List α)
    (h : l.Pairwise (fun a b => key a ≤ key b)) :
    (insertByKey key r l).Pairwise (fun a b => key a ≤ key b) := by
  induction l with
  | nil => simp [insertByKey]
  | cons h0 t ih =>
    rw [List.pairwise_cons] at h
    unfold insertByKey
    split
    · next hlt =>
      rw [List.pairwise_cons]
      constructor
      · intro b hb
        rw [(insertByKey_perm key r t).mem_iff] at hb
        cases hb with
        | head => exact le_of_lt hlt
        | tail _ hb => exact h.1 b hb
      · exact ih h.2
    · next hge =>
      rw [List.pairwise_cons]
      constructor
      · intro b hb
        cases hb with
        | head => exact le_of_not_lt hge
        | tail _ hb => exact le_trans (le_of_not_lt hge) (h.1 b hb)
      · exact List.pairwise_cons.2 h

theorem sortByKey_pairwise (key : α → Nat) (l : List α) :
    (sortByKey key l).Pairwise (fun a b => key a ≤ key b) := by
  induction l with
  | nil => exact List.Pairwise.nil
  | cons r rest ih => exact insertByKey_pairwise key r (sortByKey key rest) ih

/-- C3: the dyeh reassembler's restore-the-natural-order step leaves the
output in non-decreasing byte-offset order, as a permutation of the
combined special-event and delimiter-based item list (so synthetic entries
are interleaved at their offsets rather than appended), and process_delta
returns exactly those reordered items. -/
theorem process_delta_offsets_sorted (delta : Str) :
    (Dyeh.sortedPositioned delta).Pairwise (fun a b => a.1 ≤ b.1) ∧
    List.Perm (Dyeh.sortedPositioned delta) (Dyeh.positionedOf (cleanBody delta)) ∧
    Dyeh.process_delta delta = (if (cleanBody delta).isEmpty then []
      else (Dyeh.sortedPositioned delta).map Prod.snd) :=
  ⟨sortByKey_pairwise Prod.fst _, sortByKey_perm Prod.fst _, rfl⟩

/-- Recursive reformulation of the merge loop: the last accumulator entry
is the range still open for extension. -/
def mergeGo (cur : Nat × Nat) : List (Nat × Nat) → List (Nat × Nat)
  | [] => [cur]
  | r :: rest =>
    if r.1 ≤ cur.2 + 1 then mergeGo (cur.1, max cur.2 r.2) rest
    else cur :: mergeGo r rest

theorem mergeStep_concat (acc : List (Nat × Nat)) (cur r : Nat × Nat) :
    Dyeh.mergeStep (acc ++ [cur]) r =
      if r.1 ≤ cur.2 + 1 then acc ++ [(cur.1, max cur.2 r.2)]
      else (acc ++ [cur]) ++ [r] := by
  unfold Dyeh.mergeStep
  rw [List.getLast?_concat]
  split
  · next last heq =>
    injection heq with h
    subst h
    split
    · rw [List.dropLast_concat]
    · rfl
  · next heq => exact Option.noConfusion heq

theorem foldl_mergeStep_eq_go (rest : List (Nat × Nat)) (acc : List (Nat × Nat))
    (cur : Nat × Nat) :
    rest.foldl Dyeh.mergeStep (acc ++ [cur]) = acc ++ mergeGo cur rest := by
  induction rest generalizing acc cur with
  | nil => rfl
  | cons r rest ih =>
    show rest.foldl Dyeh.mergeStep (Dyeh.mergeStep (acc ++ [cur]) r) = _
    rw [mergeStep_concat]
    by_cases hc : r.1 ≤ cur.2 + 1
    · rw [if_pos hc, ih]
      conv_rhs => rw [mergeGo]
      rw [if_pos hc]
    · rw [if_neg hc, ih]
      conv_rhs => rw [mergeGo]
      rw [if_neg hc]
      simp [List.append_assoc]

theorem mergeRanges_eq_go (r : Nat × Nat) (rest : List (Nat × Nat)) :
    Dyeh.mergeRanges (r :: rest) = mergeGo r rest := by
  show rest.foldl Dyeh.mergeStep (Dyeh.mergeStep [] r) = _
  have h0 : Dyeh.mergeStep [] r = [] ++ [r] := rfl
  rw [h0, foldl_mergeStep_eq_go]
  rfl

theorem mergeGo_head (l : List (Nat × Nat)) (cur : Nat × Nat) :
    ∃ b tail, mergeGo cur l = (cur.1, b) :: tail := by
  induction l generalizing cur with
  | nil => exact ⟨cur.2, [], rfl⟩
  | cons r rest ih =>
    unfold mergeGo
    split
    · exact ih (cur.1, max cur.2 r.2)
    · exact ⟨cur.2, mergeGo r rest, rfl⟩

theorem mergeGo_separated (l : List (Nat × Nat)) (cur : Nat × Nat)
    (hsort : List.Chain' (fun a b => a.1 ≤ b.1) (cur :: l)) :
    List.Chain' (fun a b => a.2 + 1 < b.1) (mergeGo cur l) := by
  induction l generalizing cur with
  | nil => simp [mergeGo]
  | cons r rest ih =>
    rw [List.chain'_cons] at hsort
    obtain ⟨hcr, hrest⟩ := hsort
    unfold mergeGo
    split
    · next hc =>
      apply ih (cur.1, max cur.2 r.2)
      cases rest with
      | nil => simp
      | cons r2 rest2 =>
        rw [List.chain'_cons] at hrest ⊢
        exact ⟨le_trans hcr hrest.1, hrest.2⟩
    · next hc =>
      obtain ⟨b, tail, heq⟩ := mergeGo_head rest r
      rw [heq, List.chain'_cons]
      exact ⟨Nat.lt_of_not_le hc, heq ▸ ih r hrest⟩

theorem mergeRanges_separated (ranges : List (Nat × Nat))
    (h : ranges.Pairwise (fun a b => a.1 ≤ b.1)) :
    List.Chain' (fun a b => a.2 + 1 < b.1) (Dyeh.mergeRanges ranges) := by
  cases ranges with
  | nil => simp [Dyeh.mergeRanges]
  | cons r rest =>
    rw [mergeRanges_eq_go]
    exact mergeGo_separated rest r h.chain'

/-- C4: after the merge loop, no two consecutive pause ranges overlap or
sit within one byte of each other (every mergeable pair is coalesced into
one contiguous range); each merged range yields exactly one synthetic
entry; and on the concrete body whose line 3 carries the pause call, line 4
is blank and line 5 reads "onpause", exactly one merged PAUSED entry
results, spanning lines 3 through 5 (bytes 4 to 37). -/
theorem pause_ranges_merged_coalesced :
    (∀ text : Str,
      List.Chain' (fun a b => a.2 + 1 < b.1) (Dyeh.pause_block_ranges text)) ∧
    (∀ text : Str, Dyeh.pauseCapture text =
      (Dyeh.pause_block_ranges text).map (fun span => (span, Dyeh.pausedItem))) ∧
    Dyeh.pause_block_ranges "a\nb\nbef_effect_onpause_imp(\n\nonpause\n".toList
      = [(4, 37)] ∧
    Dyeh.pauseCapture "a\nb\nbef_effect_onpause_imp(\n\nonpause\n".toList
      = [((4, 37), Dyeh.pausedItem)] :=
  ⟨fun text => mergeRanges_separated _ (sortByKey_pairwise Prod.fst _),
    fun _ => rfl, by decide, by decide⟩

/-- C5 counterexample: the delta "onpause" has no item delimiter in its
cleaned body, yet the dyeh reassembler produces one (synthetic PAUSED)
entry, not zero. -/
theorem no_delimiter_zero_entries_cex :
    itemSepOffsets (cleanBody "onpause".toList) = [] ∧
    Dyeh.process_delta "onpause".toList = [Dyeh.pausedItem] ∧
    Dyeh.process_delta "onpause".toList ≠ [] := by
  refine ⟨by decide, by decide, ?_⟩
  intro h
  exact absurd h (by decide)

/-- C5 (amended): a delta whose cleaned body contains no item delimiter and
triggers no special-event matcher yields zero entries from the dyeh
reassembler; absent the delimiter alone, the delimiter-based segmentation
contributes nothing — the plain structured parser (lazylog-parser) returns
the empty list. -/
theorem no_delimiter_no_event_zero_entries (delta : Str)
    (hsep : itemSepOffsets (cleanBody delta) = [])
    (hpause : findMatches Dyeh.matchPauseAt (cleanBody delta) 0 = [])
    (hresume : findMatches Dyeh.matchResumeAt (cleanBody delta) 0 = []) :
    Dyeh.process_delta delta = [] ∧ LLP.process_delta delta = [] := by
  have hp : Dyeh.pauseCapture (cleanBody delta) = [] := by
    unfold Dyeh.pauseCapture Dyeh.pause_block_ranges
    rw [hpause]
    rfl
  have hr : Dyeh.resumeCapture (cleanBody delta) = [] := by
    unfold Dyeh.resumeCapture Dyeh.resume_block_ranges
    rw [hresume]
    rfl
  have hst : Dyeh.structuredOf (cleanBody delta) = [] := by
    unfold Dyeh.structuredOf
    simp [hsep]
  have hpos : Dyeh.positionedOf (cleanBody delta) = [] := by
    unfold Dyeh.positionedOf
    rw [hp, hr, hst]
    rfl
  constructor
  · unfold Dyeh.process_delta
    split
    · rfl
    · unfold Dyeh.sortedPositioned
      rw [hpos]
      rfl
  · unfold LLP.process_delta
    simp [hsep]

/-- C5 witness: the amended theorem at the delta "hello", which has no
delimiter and no special-event marker. -/
theorem no_delimiter_no_event_zero_entries_witness :
    Dyeh.process_delta "hello".toList = [] ∧ LLP.process_delta "hello".toList = [] :=
  no_delimiter_no_event_zero_entries "hello".toList (by decide) (by decide) (by decide)

theorem with_metadata_content (it : LogItem) (k v : Str) :
    (it.with_metadata k v).content = it.content := by
  unfold LogItem.with_metadata
  split <;> rfl

theorem with_metadata_raw_content (it : LogItem) (k v : Str) :
    (it.with_metadata k v).raw_content = it.raw_content := by
  unfold LogItem.with_metadata
  split <;> rfl

/-- C6: each delimiter-carved item that parses is built from split_header:
its content is the trimmed message, its raw is the trimmed remainder after
the delimiter timestamp, and its metadata holds exactly those of the
level/origin/tag fields that are non-empty after trimming (under those
keys, in that insertion order) — a header non-match leaves all three
fields empty, so no key is stored at all and the entire trimmed remainder
is the message; the example delta yields one entry with content
"Login failed" and metadata level=ERROR, origin=main.rs:42, tag=AUTH. -/
theorem header_extraction_metadata_exact :
    (∀ (block : Str) (pit it : LogItem), LLP.parse_structured block = some pit →
      LLP.entryOfBlock block = some it →
      it.content = (split_header pit.content).msg ∧
      it.raw_content = pit.raw_content ∧
      it.metadata =
        (if (split_header pit.content).level.isEmpty then []
          else [("level".toList, (split_header pit.content).level)]) ++
        (if (split_header pit.content).origin.isEmpty then []
          else [("origin".toList, (split_header pit.content).origin)]) ++
        (if (split_header pit.content).tag.isEmpty then []
          else [("tag".toList, (split_header pit.content).tag)])) ∧
    (∀ line : Str, contentHeaderMatch (headCleanup line) = none →
      split_header line = ⟨[], [], [], trimStr (headCleanup line)⟩) ∧
    LLP.process_delta
        "## 2025-01-15 10:30:00\n[main.rs:42] ERROR ## [AUTH]Login failed".toList =
      [⟨[], "Login failed".toList,
        "[main.rs:42] ERROR ## [AUTH]Login failed".toList,
        [("level".toList, "ERROR".toList), ("origin".toList, "main.rs:42".toList),
          ("tag".toList, "AUTH".toList)]⟩] := by
  have e1 : (("level".toList : Str) == "origin".toList) = false := by decide
  have e2 : (("level".toList : Str) == "tag".toList) = false := by decide
  have e3 : (("origin".toList : Str) == "tag".toList) = false := by decide
  refine ⟨?_, ?_, by decide⟩
  · intro block pit it hps hob
    unfold LLP.entryOfBlock at hob
    rw [hps, Option.map_some'] at hob
    injection hob with hob
    subst hob
    cases hl : (split_header pit.content).level.isEmpty <;>
      cases ho : (split_header pit.content).origin.isEmpty <;>
        cases ht : (split_header pit.content).tag.isEmpty <;>
          simp [LogItem.with_metadata, LogItem.new, hl, ho, ht, e1, e2, e3]
  · intro line h
    simp [split_header, h]

/-- Concrete block for the C6 witness. -/
def c6block : Str := "## 2025-01-15 10:30:00 [o] ERROR ## [T]m".toList

/-- Its parse_structured result. -/
def c6pit : LogItem :=
  LogItem.new "[o] ERROR ## [T]m".toList "[o] ERROR ## [T]m".toList

/-- Its entryOfBlock result. -/
def c6it : LogItem :=
  ⟨[], "m".toList, "[o] ERROR ## [T]m".toList,
    [("level".toList, "ERROR".toList), ("origin".toList, "o".toList),
      ("tag".toList, "T".toList)]⟩

/-- C6 witness: the general per-item statement applied to a concrete
block. -/
theorem header_extraction_metadata_exact_witness :
    c6it.content = (split_header c6pit.content).msg ∧
    c6it.raw_content = c6pit.raw_content ∧
    c6it.metadata =
      (if (split_header c6pit.content).level.isEmpty then []
        else [("level".toList, (split_header c6pit.content).level)]) ++
      (if (split_header c6pit.content).origin.isEmpty then []
        else [("origin".toList, (split_header c6pit.content).origin)]) ++
      (if (split_header c6pit.content).tag.isEmpty then []
        else [("tag".toList, (split_header c6pit.content).tag)]) :=
  header_extraction_metadata_exact.1 c6block c6pit c6it (by decide) (by decide)

/-- Raw line accepted by AndroidEffectParser in the C7 counterexample. -/
def c7raw : Str :=
  "[ 11-14 15:48:35.131 20387:30427 I/[Effect] ]\n## 2025-11-14 15:48:35 msg one".toList

/-- C7 counterexample: AndroidEffectParser::parse accepts this raw line,
but the produced entry's raw field is the trimmed structured-block content
"msg one", not the input raw string. -/
theorem effect_parse_raw_not_preserved_cex :
    (Android.effectParse c7raw).map (fun it => it.raw_content) =
      some "msg one".toList ∧
    ("msg one".toList : Str) ≠ c7raw := by
  refine ⟨by decide, ?_⟩
  intro h
  exact absurd h (by decide)

/-- C7 (amended): for the direct Android decoder, AndroidParser::parse,
every accepted raw string yields an entry whose raw field is that input,
character for character; the delegating AndroidEffectParser instead
returns entries carrying the embedded structured block's trimmed content
as raw (see the counterexample). -/
theorem android_parse_raw_preserved (raw_log : Str) (it : LogItem)
    (h : Android.parse raw_log = some it) : it.raw_content = raw_log := by
  unfold Android.parse at h
  split at h
  · exact Option.noConfusion h
  · split at h
    · injection h with h
      subst h
      rfl
    · dsimp only at h
      split at h
      · injection h with h
        subst h
        rfl
      · injection h with h
        subst h
        rw [with_metadata_raw_content, with_metadata_raw_content]
        rfl

/-- C7 witness: a malformed line is accepted verbatim and keeps its raw. -/
theorem android_parse_raw_preserved_witness :
    (LogItem.new "x".toList "x".toList).raw_content = "x".toList :=
  android_parse_raw_preserved "x".toList (LogItem.new "x".toList "x".toList)
    (by decide)
